import Mathlib

/-!
Verification development for the `lipyd` MS2 identification engine.

The definitions below are a shallow embedding of the Python sources
(`src/lipyd/ms2.py`, `src/lipyd/fragdb.py`).  Machine floats are modelled
by rationals, numpy arrays by lists, and Python exceptions by `Except`.
Modules of the repository that are not part of the provided sources
(`lipyd.lookup`, `lipyd.settings`, `lipyd.lipproc`, `lipyd.common`) are
modelled from the specification; each such definition carries a doc
comment starting with `Modelled from the spec:`.
-/

namespace Lipyd

/-- Modelled from the spec: the tolerance-match predicate of the missing
module `lipyd.lookup` — `|haystack[i] - needle| <= needle * tolerance_ppm * 1e-6`. -/
def matchTol (x needle tol : ℚ) : Bool :=
  decide (|x - needle| ≤ needle * tol / 1000000)

/-- Modelled from the spec: `lookup.findall` of the missing module
`lipyd.lookup` returns exactly the indices whose value matches the needle
within the ppm tolerance. -/
def findall (xs : List ℚ) (needle tol : ℚ) : List ℕ :=
  (List.range xs.length).filter (fun i => matchTol (xs.getD i 0) needle tol)

/-- Modelled from the spec: `lookup.find` of the missing module
`lipyd.lookup` returns the index of the closest matching value within the
ppm tolerance (tie-break: lower index), or `none` when nothing matches. -/
def find (xs : List ℚ) (needle tol : ℚ) : Option ℕ :=
  (findall xs needle tol).foldl
    (fun acc i =>
      match acc with
      | none => some i
      | some j =>
          if |xs.getD i 0 - needle| < |xs.getD j 0 - needle| then some i else some j)
    none

/-- Row of the fragment database (`fragdb.py`): the columns
`[mass, name, fragment type, chain type, c, u, charge]`; a missing carbon
count (`nan` in numpy) is modelled by `none`. -/
structure FragRecord where
  mass : ℚ
  name : String
  fragtype : String
  chaintype : String
  c : Option ℤ
  u : Option ℤ
  charge : ℤ
deriving DecidableEq

instance : Inhabited FragRecord := ⟨⟨0, "", "", "", none, none, 0⟩⟩

/-- Python idiom `tolerance or self.tolerance` on a float argument:
both `None` and `0` fall back to the default. -/
def pyOrQ (t : Option ℚ) (dflt : ℚ) : ℚ :=
  match t with
  | none => dflt
  | some x => if x = 0 then dflt else x

/-- State of `fragdb.FragmentDatabaseAggregator`: the mass-sorted fragment
table and the instance tolerance. -/
structure FragDB where
  fragments : List FragRecord
  tolerance : ℚ

/-- Embedding of `FragmentDatabaseAggregator.lookup`: range query on the
mass column by `findall`, then filtering the hit list for neutral-loss
(`charge == 0`) or charged (`charge != 0`) rows. -/
def FragDB.lookup (db : FragDB) (mz : ℚ) (nl : Bool) (tol : Option ℚ) :
    List FragRecord :=
  let t := pyOrQ tol db.tolerance
  let idx := findall (db.fragments.map (fun r => r.mass)) mz t
  let idx2 := idx.filter
    (fun i =>
      if nl then (db.fragments.getD i default).charge == 0
      else !((db.fragments.getD i default).charge == 0))
  idx2.map (fun i => db.fragments.getD i default)

/-- Embedding of `FragmentDatabaseAggregator.lookup_nl`: neutral-loss mass
is `precursor - mz` and the ppm tolerance is rescaled by `mz / nlmz`
before delegating to `lookup`. -/
def FragDB.lookup_nl (db : FragDB) (mz precursor : ℚ) (tol : Option ℚ) :
    List FragRecord :=
  let nlmz := precursor - mz
  let nl_tolerance := mz / nlmz * pyOrQ tol db.tolerance
  db.lookup nlmz true (some nl_tolerance)

/-- Embedding of `FragmentDatabaseAggregator.by_name`: name-indexed access
to the fragment table, `none` when the name is unknown. -/
def FragDB.by_name (db : FragDB) (name : String) : Option FragRecord :=
  db.fragments.find? (fun r => r.name == name)

/-- Helper: filtering indices of a list by a predicate on the stored value
and reading the values back is filtering the list itself. -/
theorem range_filter_map_getD {α : Type} (xs : List α) (d : α)
    (p : ℕ → Bool) (q : α → Bool)
    (hpq : ∀ i, i < xs.length → p i = q (xs.getD i d)) :
    ((List.range xs.length).filter p).map (fun i => xs.getD i d)
      = xs.filter q := by
  induction xs generalizing p with
  | nil => simp
  | cons x rest ih =>
    have h0 : p 0 = q x := by simpa using hpq 0 (Nat.succ_pos rest.length)
    have ihres : ((List.range rest.length).filter
          (fun i => p (Nat.succ i))).map (fun i => rest.getD i d)
        = rest.filter q := by
      refine ih (fun i => p (Nat.succ i)) ?_
      intro i hi
      have hlt : i + 1 < (x :: rest).length := by
        simpa using Nat.succ_lt_succ hi
      simpa using hpq (i + 1) hlt
    have hrange : List.range (rest.length + 1)
        = 0 :: (List.range rest.length).map Nat.succ :=
      List.range_succ_eq_map rest.length
    have hmap : ((List.range rest.length).map Nat.succ).filter p
        = ((List.range rest.length).filter (fun i => p (Nat.succ i))).map
            Nat.succ := by
      rw [List.filter_map]
      rfl
    simp only [List.length_cons, hrange, List.filter_cons, hmap,
      List.map_map]
    have htail : ((List.range rest.length).filter
          (fun i => p (Nat.succ i))).map
            ((fun i => (x :: rest).getD i d) ∘ Nat.succ)
        = rest.filter q := by
      rw [show ((fun i => (x :: rest).getD i d) ∘ Nat.succ)
            = fun i => rest.getD i d from rfl]
      exact ihres
    cases hq : q x with
    | false =>
      rw [h0, hq]
      simpa using htail
    | true =>
      rw [h0, hq]
      simpa using htail

/-- C4: the neutral-loss lookup computes the neutral-loss mass as
`precursor - mz`, rescales the ppm tolerance to
`tolerance * mz / (precursor - mz)` before delegating, and returns exactly
the charge-zero records that a direct lookup of the neutral-loss mass with
the rescaled tolerance yields. -/
theorem lookup_nl_rescaled_delegation (db : FragDB) (mz precursor t : ℚ)
    (hmz : mz ≠ 0) (ht : t ≠ 0) (hnl : precursor - mz ≠ 0) :
    db.lookup_nl mz precursor (some t)
        = db.lookup (precursor - mz) true (some (t * mz / (precursor - mz)))
      ∧
    db.lookup (precursor - mz) true (some (t * mz / (precursor - mz)))
        = db.fragments.filter
            (fun r => r.charge == 0 &&
              matchTol r.mass (precursor - mz)
                (t * mz / (precursor - mz))) := by
  have hpy : pyOrQ (some t) db.tolerance = t := if_neg ht
  have ht' : t * mz / (precursor - mz) ≠ 0 :=
    div_ne_zero (mul_ne_zero ht hmz) hnl
  have hpy' : pyOrQ (some (t * mz / (precursor - mz))) db.tolerance
      = t * mz / (precursor - mz) := if_neg ht'
  constructor
  · show db.lookup (precursor - mz) true
        (some (mz / (precursor - mz) * pyOrQ (some t) db.tolerance)) = _
    rw [hpy]
    have harg : mz / (precursor - mz) * t = t * mz / (precursor - mz) := by
      ring
    rw [harg]
  · show (((findall (db.fragments.map (fun r => r.mass)) (precursor - mz)
        (pyOrQ (some (t * mz / (precursor - mz))) db.tolerance)).filter
          (fun i => if (true : Bool)
            then (db.fragments.getD i default).charge == 0
            else !((db.fragments.getD i default).charge == 0))).map
        (fun i => db.fragments.getD i default)) = _
    rw [hpy']
    unfold findall
    rw [List.length_map, List.filter_filter]
    refine range_filter_map_getD db.fragments default _ _ ?_
    intro i hi
    have h1 : (db.fragments.map (fun r => r.mass)).getD i 0
        = (db.fragments.getD i default).mass := by
      rw [List.getD_eq_getElem _ _ (by simpa using hi),
        List.getD_eq_getElem _ _ hi]
      simp
    rw [h1]
    simp [Bool.and_comm]

/-- Concrete fragment table for the C4 witness, carrying the single
neutral-loss reference row of mass 183.066 used in the scenario of the
specification. -/
def fragDB_nl_example : FragDB :=
  ⟨[⟨183066/1000, "NL [P+Ch] (183.0661)", "PC", "", none, none, 0⟩], 50⟩

/-- Witness for C4: the theorem instantiated on the scenario numbers
(precursor 786.6, peak 603.57, base tolerance 10 ppm). -/
theorem lookup_nl_rescaled_delegation_witness :
    ((60357/100 : ℚ) ≠ 0 ∧ (10 : ℚ) ≠ 0 ∧
      (7866/10 - 60357/100 : ℚ) ≠ 0) ∧
    (fragDB_nl_example.lookup_nl (60357/100) (7866/10) (some 10)
        = fragDB_nl_example.lookup (7866/10 - 60357/100) true
            (some (10 * (60357/100) / (7866/10 - 60357/100)))
      ∧
    fragDB_nl_example.lookup (7866/10 - 60357/100) true
        (some (10 * (60357/100) / (7866/10 - 60357/100)))
        = fragDB_nl_example.fragments.filter
            (fun r => r.charge == 0 &&
              matchTol r.mass (7866/10 - 60357/100)
                (10 * (60357/100) / (7866/10 - 60357/100)))) :=
  ⟨⟨by norm_num, by norm_num, by norm_num⟩,
    lookup_nl_rescaled_delegation fragDB_nl_example (60357/100) (7866/10) 10
      (by norm_num) (by norm_num) (by norm_num)⟩

/-- Application of sorted indices to a parallel array: numpy fancy
indexing `arr[isort]`. -/
def applyIdx {α : Type} (d : α) (p : List ℕ) (xs : List α) : List α :=
  p.map (fun i => xs.getD i d)

/-- Order on indices by their stored values, ties broken by index; a
deterministic realization of numpy `argsort` order. -/
def argsortRel (xs : List ℚ) (i j : ℕ) : Prop :=
  xs.getD i 0 < xs.getD j 0 ∨ (xs.getD i 0 = xs.getD j 0 ∧ i ≤ j)

instance argsortRel.decRel (xs : List ℚ) : DecidableRel (argsortRel xs) :=
  fun i j => by unfold argsortRel; infer_instance

instance argsortRel.total (xs : List ℚ) : IsTotal ℕ (argsortRel xs) := by
  constructor
  intro i j
  rcases lt_trichotomy (xs.getD i 0) (xs.getD j 0) with h | h | h
  · exact Or.inl (Or.inl h)
  · rcases Nat.le_total i j with hij | hij
    · exact Or.inl (Or.inr ⟨h, hij⟩)
    · exact Or.inr (Or.inr ⟨h.symm, hij⟩)
  · exact Or.inr (Or.inl h)

instance argsortRel.trans (xs : List ℚ) : IsTrans ℕ (argsortRel xs) := by
  constructor
  intro i j k hij hjk
  rcases hij with h1 | ⟨h1, h1i⟩
  · rcases hjk with h2 | ⟨h2, _⟩
    · exact Or.inl (h1.trans h2)
    · exact Or.inl (h2 ▸ h1)
  · rcases hjk with h2 | ⟨h2, h2i⟩
    · exact Or.inl (h1 ▸ h2)
    · exact Or.inr ⟨h1.trans h2, h1i.trans h2i⟩

/-- Embedding of numpy `argsort`: the indices `0 .. n-1` listed in order
of ascending stored value. -/
def argsortL (xs : List ℚ) : List ℕ :=
  List.insertionSort (argsortRel xs) (List.range xs.length)

theorem argsortL_perm (xs : List ℚ) :
    (argsortL xs).Perm (List.range xs.length) :=
  List.perm_insertionSort (argsortRel xs) (List.range xs.length)

theorem applyIdx_range {α : Type} (d : α) (xs : List α) :
    applyIdx d (List.range xs.length) xs = xs := by
  apply List.ext_getElem
  · simp [applyIdx]
  · intro i h1 h2
    simp only [applyIdx, List.getElem_map, List.getElem_range]
    exact List.getD_eq_getElem xs d h2

theorem applyIdx_perm {α : Type} (d : α) {p : List ℕ} {xs : List α}
    (hp : p.Perm (List.range xs.length)) : (applyIdx d p xs).Perm xs := by
  have h := hp.map (fun i => xs.getD i d)
  have h2 : applyIdx d (List.range xs.length) xs = xs := applyIdx_range d xs
  exact h.trans (List.Perm.of_eq h2)

theorem applyIdx_length {α : Type} (d : α) (p : List ℕ) (xs : List α) :
    (applyIdx d p xs).length = p.length := by
  simp [applyIdx]

theorem applyIdx_getD {α : Type} (d : α) (p : List ℕ) (xs : List α)
    {i : ℕ} (hi : i < p.length) :
    (applyIdx d p xs).getD i d = xs.getD (p.getD i 0) d := by
  rw [List.getD_eq_getElem _ _ (by simpa [applyIdx] using hi)]
  simp only [applyIdx, List.getElem_map]
  rw [List.getD_eq_getElem _ _ hi]

/-- Values listed along `argsortL` order are ascending. -/
theorem argsortL_apply_sorted (xs : List ℚ) :
    (applyIdx 0 (argsortL xs) xs).Sorted (· ≤ ·) := by
  have hs : (argsortL xs).Sorted (argsortRel xs) :=
    List.sorted_insertionSort (argsortRel xs) (List.range xs.length)
  refine List.Pairwise.map _ ?_ hs
  intro i j hij
  rcases hij with h | ⟨h, _⟩
  · exact le_of_lt h
  · exact le_of_eq h

/-- Sortedness plus multiset equality pins the array down: a sorted
rearrangement of `xs` is the canonical ascending version of `xs`. -/
theorem sorted_rearrangement_unique {xs ys zs : List ℚ}
    (hy : ys.Perm xs) (hz : zs.Perm xs)
    (hys : ys.Sorted (fun a b => a ≤ b))
    (hzs : zs.Sorted (fun a b => a ≤ b)) : ys = zs :=
  List.eq_of_perm_of_sorted (hy.trans hz.symm) hys hzs

/-- Names of the two valid sort orders of `ScanBase` (`sorted_by`). -/
inductive SortedBy where
  | mzs
  | intensities
deriving DecidableEq

/-- State of a `ScanBase` object: the parallel per-peak arrays, the cached
sort permutations, the active order, and the scan metadata used by the
query methods. -/
structure ScanState (α : Type) where
  mzs : List ℚ
  intensities : List ℚ
  irank : List ℕ
  inorm : List ℚ
  annot : List α
  adducts : List (String × List α)
  sorted_by : Option SortedBy
  iisort : List ℕ
  imzsort : List ℕ
  precursor : Option ℚ
  tolerance : ℚ

/-- Embedding of `ScanBase.sort`: applies sorted indices to every parallel
per-peak array — intensities, mzs, the derived arrays `irank`, `annot`,
`inorm`, and the annotation array of every cached adduct view. -/
def ScanState.sort {α : Type} [Inhabited α] (s : ScanState α)
    (isort : List ℕ) : ScanState α :=
  { s with
    intensities := applyIdx 0 isort s.intensities
    mzs := applyIdx 0 isort s.mzs
    irank := applyIdx 0 isort s.irank
    annot := applyIdx default isort s.annot
    inorm := applyIdx 0 isort s.inorm
    adducts := s.adducts.map (fun ad => (ad.1, applyIdx default isort ad.2)) }

/-- Embedding of `ScanBase.sort_mz`: no-op when already sorted by m/z,
cached permutation `imzsort` from the intensity order, fresh argsort
otherwise. -/
def ScanState.sort_mz {α : Type} [Inhabited α] (s : ScanState α) :
    ScanState α :=
  if s.sorted_by = some SortedBy.mzs then s
  else if s.sorted_by = some SortedBy.intensities then
    { s.sort s.imzsort with sorted_by := some SortedBy.mzs }
  else
    { s.sort (argsortL s.mzs) with sorted_by := some SortedBy.mzs }

/-- Embedding of `ScanBase.sort_intensity`: no-op when already sorted by
intensity, cached permutation `iisort` from the m/z order, fresh reversed
argsort otherwise. -/
def ScanState.sort_intensity {α : Type} [Inhabited α] (s : ScanState α) :
    ScanState α :=
  if s.sorted_by = some SortedBy.intensities then s
  else if s.sorted_by = some SortedBy.mzs then
    { s.sort s.iisort with sorted_by := some SortedBy.intensities }
  else
    { s.sort (argsortL s.intensities).reverse with
        sorted_by := some SortedBy.intensities }

/-- Embedding of `ScanBase.__init__`: normalizes the intensities, sorts by
m/z (fresh argsort), computes `iisort` there, sorts back by intensity,
then records `irank = arange(n)` and `imzsort` in the intensity-sorted
state.  The annotation array is a parameter, standing for the result of
the external fragment annotator on the raw peak order. -/
def scanInit {α : Type} [Inhabited α] (mzs0 ints0 : List ℚ)
    (annot0 : List α) (precursor : Option ℚ) (tolerance : ℚ) :
    ScanState α :=
  let imax := ints0.foldr max (ints0.headD 0)
  let inorm0 := ints0.map (fun x => x / imax)
  let pi := argsortL mzs0
  let mzsM := applyIdx 0 pi mzs0
  let intsM := applyIdx 0 pi ints0
  let annotM := applyIdx default pi annot0
  let inormM := applyIdx 0 pi inorm0
  let iis := (argsortL intsM).reverse
  let mzsI := applyIdx 0 iis mzsM
  { mzs := mzsI
    intensities := applyIdx 0 iis intsM
    irank := List.range mzs0.length
    inorm := applyIdx 0 iis inormM
    annot := applyIdx default iis annotM
    adducts := []
    sorted_by := some SortedBy.intensities
    iisort := iis
    imzsort := argsortL mzsI
    precursor := precursor
    tolerance := tolerance }

/-- One transition of the two-state sort machine of `ScanBase`. -/
inductive SortOp where
  | mz
  | intensity
deriving DecidableEq

/-- Runs one sort transition. -/
def applySortOp {α : Type} [Inhabited α] (op : SortOp) (s : ScanState α) :
    ScanState α :=
  match op with
  | SortOp.mz => s.sort_mz
  | SortOp.intensity => s.sort_intensity

/-- Parallel-array wellformedness of a scan state: the cached sort index
arrays are permutations of the peak index range and every per-peak array
has the common length. -/
def ScanWf {α : Type} (s : ScanState α) : Prop :=
  s.iisort.Perm (List.range s.mzs.length) ∧
  s.imzsort.Perm (List.range s.mzs.length) ∧
  s.intensities.length = s.mzs.length ∧
  s.irank.length = s.mzs.length ∧
  s.inorm.length = s.mzs.length ∧
  s.annot.length = s.mzs.length ∧
  (∀ ad ∈ s.adducts, (ad.2 : List α).length = s.mzs.length)

instance {α : Type} (s : ScanState α) : Decidable (ScanWf s) := by
  unfold ScanWf; infer_instance

/-- C2: every sort transition reorders `mzs`, `intensities` and every
derived per-peak array present — intensity rank, normalized intensity,
annotation array, and each cached adduct-view annotation array — by one
common permutation of the peak indices, so after the transition the
values at index `i` all still describe the same original peak. -/
theorem sort_transition_common_permutation {α : Type} [Inhabited α]
    (s : ScanState α) (op : SortOp) (hwf : ScanWf s) :
    ∃ p : List ℕ, p.Perm (List.range s.mzs.length) ∧
      (applySortOp op s).mzs = applyIdx 0 p s.mzs ∧
      (applySortOp op s).intensities = applyIdx 0 p s.intensities ∧
      (applySortOp op s).irank = applyIdx 0 p s.irank ∧
      (applySortOp op s).inorm = applyIdx 0 p s.inorm ∧
      (applySortOp op s).annot = applyIdx default p s.annot ∧
      (applySortOp op s).adducts
        = s.adducts.map (fun ad => (ad.1, applyIdx default p ad.2)) ∧
      ∀ i, i < s.mzs.length →
        (applySortOp op s).mzs.getD i 0 = s.mzs.getD (p.getD i 0) 0 ∧
        (applySortOp op s).intensities.getD i 0
          = s.intensities.getD (p.getD i 0) 0 ∧
        (applySortOp op s).annot.getD i default
          = s.annot.getD (p.getD i 0) default := by
  obtain ⟨hii, himz, hint, hirank, hinorm, hannot, hadd⟩ := hwf
  have idcase : ∀ t : ScanState α, t = s →
      (t.mzs = applyIdx 0 (List.range s.mzs.length) s.mzs ∧
        t.intensities = applyIdx 0 (List.range s.mzs.length) s.intensities ∧
        t.irank = applyIdx 0 (List.range s.mzs.length) s.irank ∧
        t.inorm = applyIdx 0 (List.range s.mzs.length) s.inorm ∧
        t.annot = applyIdx default (List.range s.mzs.length) s.annot ∧
        t.adducts = s.adducts.map
          (fun ad => (ad.1, applyIdx default (List.range s.mzs.length)
            ad.2))) := by
    intro t ht
    subst ht
    refine ⟨(applyIdx_range 0 t.mzs).symm, ?_, ?_, ?_, ?_, ?_⟩
    · rw [← hint]; exact (applyIdx_range 0 t.intensities).symm
    · rw [← hirank]; exact (applyIdx_range 0 t.irank).symm
    · rw [← hinorm]; exact (applyIdx_range 0 t.inorm).symm
    · rw [← hannot]; exact (applyIdx_range default t.annot).symm
    · have : ∀ ad ∈ t.adducts,
          (fun ad => ((ad : String × List α).1,
            applyIdx default (List.range t.mzs.length) ad.2)) ad = ad := by
        intro ad had
        have := hadd ad had
        simp only []
        rw [← this]
        rw [applyIdx_range default ad.2]
      rw [List.map_congr_left this]
      simp
  have rangeGetD : ∀ i, i < s.mzs.length →
      (List.range s.mzs.length).getD i 0 = i := by
    intro i hi
    rw [List.getD_eq_getElem _ _ (by simpa using hi)]
    simp
  have getDcase : ∀ (p : List ℕ), p.length = s.mzs.length →
      ∀ i, i < s.mzs.length →
        (applyIdx 0 p s.mzs).getD i 0 = s.mzs.getD (p.getD i 0) 0 ∧
        (applyIdx 0 p s.intensities).getD i 0
          = s.intensities.getD (p.getD i 0) 0 ∧
        (applyIdx default p s.annot).getD i default
          = s.annot.getD (p.getD i 0) default := by
    intro p hp i hi
    exact ⟨applyIdx_getD 0 p s.mzs (by omega),
      applyIdx_getD 0 p s.intensities (by omega),
      applyIdx_getD default p s.annot (by omega)⟩
  cases op with
  | mz =>
    simp only [applySortOp]
    unfold ScanState.sort_mz
    rcases hsb : s.sorted_by with _ | sb
    · simp only [reduceIte]
      refine ⟨argsortL s.mzs, argsortL_perm s.mzs,
        rfl, rfl, rfl, rfl, rfl, rfl, ?_⟩
      refine getDcase _ ?_
      exact ((argsortL_perm s.mzs).length_eq).trans (List.length_range _)
    · cases sb with
      | mzs =>
        simp only [reduceIte]
        obtain ⟨h1, h2, h3, h4, h5, h6⟩ := idcase s rfl
        refine ⟨List.range s.mzs.length, List.Perm.refl _,
          h1, h2, h3, h4, h5, h6, ?_⟩
        intro i hi
        rw [rangeGetD i hi]
        exact ⟨rfl, rfl, rfl⟩
      | intensities =>
        simp only [reduceIte]
        refine ⟨s.imzsort, himz, rfl, rfl, rfl, rfl, rfl, rfl, ?_⟩
        refine getDcase _ ?_
        exact (himz.length_eq).trans (List.length_range _)
  | intensity =>
    simp only [applySortOp]
    unfold ScanState.sort_intensity
    rcases hsb : s.sorted_by with _ | sb
    · simp only [reduceIte]
      have hperm : ((argsortL s.intensities).reverse).Perm
          (List.range s.mzs.length) := by
        refine (List.reverse_perm _).trans ?_
        have := argsortL_perm s.intensities
        rwa [hint] at this
      refine ⟨(argsortL s.intensities).reverse, hperm,
        rfl, rfl, rfl, rfl, rfl, rfl, ?_⟩
      refine getDcase _ ?_
      exact (hperm.length_eq).trans (List.length_range _)
    · cases sb with
      | intensities =>
        simp only [reduceIte]
        obtain ⟨h1, h2, h3, h4, h5, h6⟩ := idcase s rfl
        refine ⟨List.range s.mzs.length, List.Perm.refl _,
          h1, h2, h3, h4, h5, h6, ?_⟩
        intro i hi
        rw [rangeGetD i hi]
        exact ⟨rfl, rfl, rfl⟩
      | mzs =>
        simp only [reduceIte]
        refine ⟨s.iisort, hii, rfl, rfl, rfl, rfl, rfl, rfl, ?_⟩
        refine getDcase _ ?_
        exact (hii.length_eq).trans (List.length_range _)

/-- Canonical ascending rearrangement of an array, the result of sorting
it by numpy `argsort` indices. -/
def sortedQ (xs : List ℚ) : List ℚ := applyIdx 0 (argsortL xs) xs

theorem sortedQ_sorted (xs : List ℚ) :
    (sortedQ xs).Sorted (fun a b => a ≤ b) := argsortL_apply_sorted xs

theorem sortedQ_perm (xs : List ℚ) : (sortedQ xs).Perm xs :=
  applyIdx_perm 0 (argsortL_perm xs)

theorem sortedQ_length (xs : List ℚ) : (sortedQ xs).length = xs.length := by
  rw [sortedQ, applyIdx_length]
  exact ((argsortL_perm xs).length_eq).trans (List.length_range _)

theorem sortedQ_unique {xs ys : List ℚ} (h : ys.Perm xs)
    (hs : ys.Sorted (fun a b => a ≤ b)) : ys = sortedQ xs :=
  sorted_rearrangement_unique h (sortedQ_perm xs) hs (sortedQ_sorted xs)

/-- Runs a sequence of sort transitions. -/
def applySortOps {α : Type} [Inhabited α] (ops : List SortOp)
    (s : ScanState α) : ScanState α :=
  ops.foldl (fun t op => applySortOp op t) s

/-- Invariant of the sort state machine relative to the original m/z
array and the construction-time cached permutations: the cached arrays
never change, the m/z multiset never changes, and the m/z array is the
canonical ascending one in the m/z-sorted state — also after the cached
`imzsort` jump from the intensity-sorted state. -/
def SortInv {α : Type} (mzs0 : List ℚ) (sg rh : List ℕ)
    (s : ScanState α) : Prop :=
  s.iisort = sg ∧ s.imzsort = rh ∧ s.mzs.Perm mzs0 ∧
  (s.sorted_by = some SortedBy.mzs → s.mzs = sortedQ mzs0) ∧
  (s.sorted_by = some SortedBy.intensities →
    applyIdx 0 rh s.mzs = sortedQ mzs0) ∧
  s.sorted_by ≠ none

theorem sortInv_preserved {α : Type} [Inhabited α] (mzs0 : List ℚ)
    (sg rh : List ℕ) (hsg : sg.Perm (List.range mzs0.length))
    (hkey : applyIdx 0 rh (applyIdx 0 sg (sortedQ mzs0)) = sortedQ mzs0)
    (s : ScanState α) (hinv : SortInv mzs0 sg rh s) (op : SortOp) :
    SortInv mzs0 sg rh (applySortOp op s) := by
  obtain ⟨h1, h2, h3, h4, h5, h6⟩ := hinv
  cases op with
  | mz =>
    show SortInv mzs0 sg rh s.sort_mz
    unfold ScanState.sort_mz
    rcases hsb : s.sorted_by with _ | sb
    · exact absurd hsb h6
    · cases sb with
      | mzs =>
        simp only [reduceIte]
        exact ⟨h1, h2, h3, h4, h5, h6⟩
      | intensities =>
        simp only [reduceIte]
        refine ⟨h1, h2, ?_, ?_, ?_, ?_⟩
        · show (applyIdx 0 s.imzsort s.mzs).Perm mzs0
          rw [h2, h5 hsb]
          exact sortedQ_perm mzs0
        · intro _
          show applyIdx 0 s.imzsort s.mzs = sortedQ mzs0
          rw [h2]
          exact h5 hsb
        · intro h
          cases h
        · intro h
          cases h
  | intensity =>
    show SortInv mzs0 sg rh s.sort_intensity
    unfold ScanState.sort_intensity
    rcases hsb : s.sorted_by with _ | sb
    · exact absurd hsb h6
    · cases sb with
      | intensities =>
        simp only [reduceIte]
        exact ⟨h1, h2, h3, h4, h5, h6⟩
      | mzs =>
        simp only [reduceIte]
        refine ⟨h1, h2, ?_, ?_, ?_, ?_⟩
        · show (applyIdx 0 s.iisort s.mzs).Perm mzs0
          rw [h1, h4 hsb]
          have hlen : (sortedQ mzs0).length = mzs0.length :=
            sortedQ_length mzs0
          have : (applyIdx 0 sg (sortedQ mzs0)).Perm (sortedQ mzs0) :=
            applyIdx_perm 0 (by rwa [hlen])
          exact this.trans (sortedQ_perm mzs0)
        · intro h
          cases h
        · intro _
          show applyIdx 0 rh (applyIdx 0 s.iisort s.mzs) = sortedQ mzs0
          rw [h1, h4 hsb]
          exact hkey
        · intro h
          cases h

theorem sortInv_applySortOps {α : Type} [Inhabited α] (mzs0 : List ℚ)
    (sg rh : List ℕ) (hsg : sg.Perm (List.range mzs0.length))
    (hkey : applyIdx 0 rh (applyIdx 0 sg (sortedQ mzs0)) = sortedQ mzs0)
    (ops : List SortOp) (s : ScanState α) (hinv : SortInv mzs0 sg rh s) :
    SortInv mzs0 sg rh (applySortOps ops s) := by
  induction ops generalizing s with
  | nil => exact hinv
  | cons op rest ih =>
    exact ih (applySortOp op s)
      (sortInv_preserved mzs0 sg rh hsg hkey s hinv op)

theorem scanInit_iisort {α : Type} [Inhabited α] (mzs0 ints0 : List ℚ)
    (annot0 : List α) (pre : Option ℚ) (tol : ℚ) :
    (scanInit mzs0 ints0 annot0 pre tol : ScanState α).iisort
      = (argsortL (applyIdx 0 (argsortL mzs0) ints0)).reverse := rfl

theorem scanInit_mzs {α : Type} [Inhabited α] (mzs0 ints0 : List ℚ)
    (annot0 : List α) (pre : Option ℚ) (tol : ℚ) :
    (scanInit mzs0 ints0 annot0 pre tol : ScanState α).mzs
      = applyIdx 0 ((argsortL (applyIdx 0 (argsortL mzs0) ints0)).reverse)
          (sortedQ mzs0) := rfl

theorem scanInit_imzsort {α : Type} [Inhabited α] (mzs0 ints0 : List ℚ)
    (annot0 : List α) (pre : Option ℚ) (tol : ℚ) :
    (scanInit mzs0 ints0 annot0 pre tol : ScanState α).imzsort
      = argsortL (applyIdx 0
          ((argsortL (applyIdx 0 (argsortL mzs0) ints0)).reverse)
          (sortedQ mzs0)) := rfl

theorem scanInit_sorted_by {α : Type} [Inhabited α] (mzs0 ints0 : List ℚ)
    (annot0 : List α) (pre : Option ℚ) (tol : ℚ) :
    (scanInit mzs0 ints0 annot0 pre tol : ScanState α).sorted_by
      = some SortedBy.intensities := rfl

theorem scanInit_sortInv {α : Type} [Inhabited α] (mzs0 ints0 : List ℚ)
    (annot0 : List α) (pre : Option ℚ) (tol : ℚ) :
    SortInv mzs0 (scanInit mzs0 ints0 annot0 pre tol : ScanState α).iisort
      (scanInit mzs0 ints0 annot0 pre tol : ScanState α).imzsort
      (scanInit mzs0 ints0 annot0 pre tol) ∧
    ((scanInit mzs0 ints0 annot0 pre tol : ScanState α).iisort).Perm
      (List.range mzs0.length) ∧
    applyIdx 0 (scanInit mzs0 ints0 annot0 pre tol : ScanState α).imzsort
        (applyIdx 0 (scanInit mzs0 ints0 annot0 pre tol :
          ScanState α).iisort (sortedQ mzs0))
      = sortedQ mzs0 := by
  rw [scanInit_iisort, scanInit_imzsort]
  have hlenI : (applyIdx 0 (argsortL mzs0) ints0).length = mzs0.length := by
    rw [applyIdx_length]
    exact ((argsortL_perm mzs0).length_eq).trans (List.length_range _)
  have hiisperm :
      ((argsortL (applyIdx 0 (argsortL mzs0) ints0)).reverse).Perm
        (List.range mzs0.length) := by
    refine (List.reverse_perm _).trans ?_
    have := argsortL_perm (applyIdx 0 (argsortL mzs0) ints0)
    rwa [hlenI] at this
  have hmzsI : (applyIdx 0
      ((argsortL (applyIdx 0 (argsortL mzs0) ints0)).reverse)
      (sortedQ mzs0)).Perm mzs0 := by
    have h := applyIdx_perm (0 : ℚ)
      (show ((argsortL (applyIdx 0 (argsortL mzs0) ints0)).reverse).Perm
          (List.range (sortedQ mzs0).length) by rwa [sortedQ_length])
    exact h.trans (sortedQ_perm mzs0)
  have hrh : applyIdx 0
      (argsortL (applyIdx 0
        ((argsortL (applyIdx 0 (argsortL mzs0) ints0)).reverse)
        (sortedQ mzs0)))
      (applyIdx 0
        ((argsortL (applyIdx 0 (argsortL mzs0) ints0)).reverse)
        (sortedQ mzs0)) = sortedQ mzs0 := by
    refine sortedQ_unique ?_ ?_
    · exact (applyIdx_perm 0 (argsortL_perm _)).trans hmzsI
    · exact argsortL_apply_sorted _
  refine ⟨⟨rfl, rfl, ?_, ?_, ?_, ?_⟩, hiisperm, hrh⟩
  · rw [scanInit_mzs]
    exact hmzsI
  · rw [scanInit_sorted_by]
    intro h
    cases h
  · rw [scanInit_sorted_by, scanInit_mzs]
    intro _
    exact hrh
  · rw [scanInit_sorted_by]
    intro h
    cases h

theorem sort_mz_sorted_by {α : Type} [Inhabited α] (t : ScanState α) :
    t.sort_mz.sorted_by = some SortedBy.mzs := by
  unfold ScanState.sort_mz
  rcases htb : t.sorted_by with _ | sb
  · rfl
  · cases sb with
    | mzs => exact htb
    | intensities => rfl

theorem sort_intensity_sorted_by {α : Type} [Inhabited α]
    (t : ScanState α) :
    t.sort_intensity.sorted_by = some SortedBy.intensities := by
  unfold ScanState.sort_intensity
  rcases htb : t.sorted_by with _ | sb
  · rfl
  · cases sb with
    | intensities => exact htb
    | mzs => rfl

theorem sort_mz_of_sorted {α : Type} [Inhabited α] (t : ScanState α)
    (h : t.sorted_by = some SortedBy.mzs) : t.sort_mz = t := by
  unfold ScanState.sort_mz
  rw [if_pos h]

theorem sort_intensity_of_sorted {α : Type} [Inhabited α] (t : ScanState α)
    (h : t.sorted_by = some SortedBy.intensities) : t.sort_intensity = t := by
  unfold ScanState.sort_intensity
  rw [if_pos h]

/-- C3: both sort operations are idempotent — calling one in a state it
already established changes nothing — and on any Scan reachable from
construction the sequence `sort_mz(); sort_intensity(); sort_mz()` leaves
the `mzs` array element-wise identical to the one after the first
`sort_mz()`. -/
theorem scan_sort_idempotent_roundtrip {α : Type} [Inhabited α]
    (mzs0 ints0 : List ℚ) (annot0 : List α) (pre : Option ℚ) (tol : ℚ)
    (ops : List SortOp) (s0 : ScanState α)
    (hs : applySortOps ops
      (scanInit mzs0 ints0 annot0 pre tol : ScanState α) = s0) :
    s0.sort_mz.sort_mz = s0.sort_mz ∧
    s0.sort_intensity.sort_intensity = s0.sort_intensity ∧
    s0.sort_mz.sort_intensity.sort_mz.mzs = s0.sort_mz.mzs := by
  set sg := (scanInit mzs0 ints0 annot0 pre tol : ScanState α).iisort
  set rh := (scanInit mzs0 ints0 annot0 pre tol : ScanState α).imzsort
  obtain ⟨hinv0, hsg, hkey⟩ :=
    scanInit_sortInv mzs0 ints0 annot0 pre tol
  have hinv : SortInv mzs0 sg rh s0 := by
    rw [← hs]
    exact sortInv_applySortOps mzs0 sg rh hsg hkey ops _ hinv0
  have hmzidem : s0.sort_mz.sort_mz = s0.sort_mz :=
    sort_mz_of_sorted _ (sort_mz_sorted_by s0)
  have hintidem : s0.sort_intensity.sort_intensity = s0.sort_intensity :=
    sort_intensity_of_sorted _ (sort_intensity_sorted_by s0)
  refine ⟨hmzidem, hintidem, ?_⟩
  have hinv1 : SortInv mzs0 sg rh s0.sort_mz :=
    sortInv_preserved mzs0 sg rh hsg hkey s0 hinv SortOp.mz
  have hinv3 : SortInv mzs0 sg rh s0.sort_mz.sort_intensity.sort_mz :=
    sortInv_preserved mzs0 sg rh hsg hkey _
      (sortInv_preserved mzs0 sg rh hsg hkey _ hinv1 SortOp.intensity)
      SortOp.mz
  rw [hinv3.2.2.2.1 (sort_mz_sorted_by _),
    hinv1.2.2.2.1 (sort_mz_sorted_by _)]

/-- Concrete two-peak scan for the C2 witness. -/
def scanC2 : ScanState ℕ := scanInit [2, 1] [3, 4] [10, 20] none 50

/-- Witness for C2 at a concrete two-peak scan and the `sort_mz`
transition. -/
theorem sort_transition_common_permutation_witness :
    ScanWf scanC2 ∧
    (∃ p : List ℕ, p.Perm (List.range scanC2.mzs.length) ∧
      (applySortOp SortOp.mz scanC2).mzs = applyIdx 0 p scanC2.mzs ∧
      (applySortOp SortOp.mz scanC2).intensities
        = applyIdx 0 p scanC2.intensities ∧
      (applySortOp SortOp.mz scanC2).irank = applyIdx 0 p scanC2.irank ∧
      (applySortOp SortOp.mz scanC2).inorm = applyIdx 0 p scanC2.inorm ∧
      (applySortOp SortOp.mz scanC2).annot = applyIdx default p scanC2.annot ∧
      (applySortOp SortOp.mz scanC2).adducts
        = scanC2.adducts.map (fun ad => (ad.1, applyIdx default p ad.2)) ∧
      ∀ i, i < scanC2.mzs.length →
        (applySortOp SortOp.mz scanC2).mzs.getD i 0
          = scanC2.mzs.getD (p.getD i 0) 0 ∧
        (applySortOp SortOp.mz scanC2).intensities.getD i 0
          = scanC2.intensities.getD (p.getD i 0) 0 ∧
        (applySortOp SortOp.mz scanC2).annot.getD i default
          = scanC2.annot.getD (p.getD i 0) default) :=
  ⟨by decide, sort_transition_common_permutation scanC2 SortOp.mz (by decide)⟩

/-- Concrete two-peak scan for the C3 witness. -/
def scanC3 : ScanState ℕ := scanInit [2, 1] [3, 4] [10, 20] none 50

/-- Witness for C3 at a concrete two-peak scan reachable by the empty
transition sequence. -/
theorem scan_sort_idempotent_roundtrip_witness :
    applySortOps [] scanC3 = scanC3 ∧
    (scanC3.sort_mz.sort_mz = scanC3.sort_mz ∧
     scanC3.sort_intensity.sort_intensity = scanC3.sort_intensity ∧
     scanC3.sort_mz.sort_intensity.sort_mz.mzs = scanC3.sort_mz.mzs) :=
  ⟨rfl,
    scan_sort_idempotent_roundtrip [2, 1] [3, 4] [10, 20] none 50 []
      scanC3 rfl⟩

/-- Embedding of `Scan.nl`: the neutral-loss m/z corresponding to a mass;
`none` models the `nan` returned when the precursor is unknown. -/
def ScanState.nl {α : Type} (s : ScanState α) (mass : ℚ) : Option ℚ :=
  s.precursor.map (fun p => p - mass)

/-- Engine of `Scan.mz_lookup`: sorts by m/z, runs the tolerance `find`
(a `none` target is the `nan` case and matches no peak), translates a
truthy hit index through `imzsort`, and sorts back by intensity.  The
Python `self.imzsort[imz] if imz else None` makes a hit at index 0 falsy,
hence reported as no hit. -/
def ScanState.mz_lookupO {α : Type} [Inhabited α] (s : ScanState α)
    (mz : Option ℚ) : Option ℕ × ScanState α :=
  let s1 := s.sort_mz
  let imz : Option ℕ :=
    match mz with
    | none => none
    | some m => find s1.mzs m s1.tolerance
  let i : Option ℕ :=
    match imz with
    | none => none
    | some k => if k = 0 then none else some (s1.imzsort.getD k 0)
  (i, s1.sort_intensity)

/-- Embedding of `Scan.mz_lookup` on a known target m/z. -/
def ScanState.mz_lookup {α : Type} [Inhabited α] (s : ScanState α)
    (mz : ℚ) : Option ℕ × ScanState α :=
  s.mz_lookupO (some mz)

/-- Embedding of `Scan.nl_lookup`. -/
def ScanState.nl_lookup {α : Type} [Inhabited α] (s : ScanState α)
    (mass : ℚ) : Option ℕ × ScanState α :=
  s.mz_lookupO (s.nl mass)

/-- Embedding of `Scan.has_mz`: true iff `mz_lookup` returned an index. -/
def ScanState.has_mz {α : Type} [Inhabited α] (s : ScanState α) (mz : ℚ) :
    Bool × ScanState α :=
  let r := s.mz_lookup mz
  (r.1.isSome, r.2)

/-- Result of `Scan.fragment_by_name`: Python `False` (name unknown to the
database) versus an optional scan index. -/
inductive NameLookup where
  | unknown
  | found (i : Option ℕ)
deriving DecidableEq

/-- Embedding of `Scan.fragment_by_name`: looks the name up in the
fragment database; charge-zero records are searched as neutral losses,
others as direct ions. -/
def ScanState.fragment_by_name {α : Type} [Inhabited α] (db : FragDB)
    (s : ScanState α) (name : String) : NameLookup × ScanState α :=
  match db.by_name name with
  | none => (NameLookup.unknown, s)
  | some frag =>
    if frag.charge = 0 then
      let r := s.nl_lookup frag.mass
      (NameLookup.found r.1, r.2)
    else
      let r := s.mz_lookup frag.mass
      (NameLookup.found r.1, r.2)

/-- Embedding of `Scan.has_fragment`: `none` when the name is not in the
database, otherwise whether the fragment index was found. -/
def ScanState.has_fragment {α : Type} [Inhabited α] (db : FragDB)
    (s : ScanState α) (name : String) : Option Bool × ScanState α :=
  let r := ScanState.fragment_by_name db s name
  match r.1 with
  | NameLookup.unknown => (none, r.2)
  | NameLookup.found i => (some i.isSome, r.2)

/-- Embedding of `Scan.mz_among_most_abundant`: sorts by m/z, looks the
target up among the peaks whose intensity rank is below `n`, sorts back by
intensity. -/
def ScanState.mz_among_most_abundant {α : Type} [Inhabited α]
    (s : ScanState α) (mz : ℚ) (n : ℕ) : Bool × ScanState α :=
  let s1 := s.sort_mz
  let masked := ((s1.mzs.zip s1.irank).filter
    (fun x => x.2 < n)).map (fun x => x.1)
  let i := find masked mz s1.tolerance
  (i.isSome, s1.sort_intensity)

theorem sort_mz_tolerance {α : Type} [Inhabited α] (s : ScanState α) :
    s.sort_mz.tolerance = s.tolerance := by
  unfold ScanState.sort_mz
  split_ifs <;> rfl

theorem sort_mz_precursor {α : Type} [Inhabited α] (s : ScanState α) :
    s.sort_mz.precursor = s.precursor := by
  unfold ScanState.sort_mz
  split_ifs <;> rfl

/-- Truthiness of the Python value `self.imzsort[imz] if imz else None`
seen through `is not None`: a lookup hit counts only at a nonzero index. -/
def foundNonzero (o : Option ℕ) : Bool :=
  match o with
  | none => false
  | some k => decide (k ≠ 0)

theorem mz_lookup_fst {α : Type} [Inhabited α] (s : ScanState α) (m : ℚ) :
    (s.mz_lookup m).1
      = match find s.sort_mz.mzs m s.sort_mz.tolerance with
        | none => none
        | some k =>
            if k = 0 then none else some (s.sort_mz.imzsort.getD k 0) := rfl

theorem mz_lookup_isSome {α : Type} [Inhabited α] (s : ScanState α)
    (m : ℚ) :
    ((s.mz_lookup m).1).isSome
      = foundNonzero (find s.sort_mz.mzs m s.tolerance) := by
  rw [mz_lookup_fst, sort_mz_tolerance]
  cases h : find s.sort_mz.mzs m s.tolerance with
  | none => rfl
  | some k =>
    by_cases hk : k = 0
    · subst hk
      rfl
    · simp [foundNonzero, hk]

/-- C6 (failing input of the code defect): on a scan whose lowest-m/z peak
is the unique match, `has_mz` returns `False` although a peak within
tolerance exists, because the truthiness test `if imz` treats the hit
index 0 as a miss. -/
def scanC6 : ScanState ℕ := scanInit [100, 200] [5, 3] [0, 0] none 10

/-- C6: evaluation of the code at the failing input — the peak at index 0
matches the queried m/z within tolerance, yet `has_mz` answers `false`. -/
theorem has_mz_misses_lowest_mz_peak :
    matchTol (scanC6.mzs.getD 0 0) 100 scanC6.tolerance = true ∧
    (scanC6.has_mz 100).1 = false := by
  have hm0 : matchTol (100 : ℚ) 100 10 = true := by
    simp [matchTol]
    norm_num
  have hm1 : matchTol (200 : ℚ) 100 10 = false := by
    simp [matchTol]
    norm_num
  have hfind : find [100, 200] (100 : ℚ) 10 = some 0 := by
    unfold find findall
    simp [hm0, hm1, List.filter, show List.range 2 = [0, 1] from rfl]
  constructor
  · rw [show scanC6.mzs.getD 0 0 = (100 : ℚ) from by decide,
      show scanC6.tolerance = 10 from by decide]
    exact hm0
  · show ((scanC6.mz_lookup 100).1).isSome = false
    rw [mz_lookup_isSome,
      show scanC6.sort_mz.mzs = [100, 200] from by decide,
      show scanC6.tolerance = 10 from by decide, hfind]
    rfl

/-- C10 (amended): every query — `mz_lookup`, `has_mz`,
`mz_among_most_abundant` — finishes with the intensity-descending order
active, whatever order was active before the call. -/
theorem queries_end_intensity_sorted {α : Type} [Inhabited α]
    (s : ScanState α) (mz : ℚ) (n : ℕ) :
    ((s.mz_lookup mz).2).sorted_by = some SortedBy.intensities ∧
    ((s.has_mz mz).2).sorted_by = some SortedBy.intensities ∧
    ((s.mz_among_most_abundant mz n).2).sorted_by
      = some SortedBy.intensities :=
  ⟨sort_intensity_sorted_by _, sort_intensity_sorted_by _,
    sort_intensity_sorted_by _⟩

/-- Concrete scan left in the m/z-sorted state, for the C10
counterexample. -/
def scanC10 : ScanState ℕ :=
  (scanInit [100, 200] [5, 3] [0, 0] none 10).sort_mz

/-- C10 (counterexample): a query on a scan that was in the m/z-sorted
state does not restore that order — it returns with the intensity order
active instead. -/
theorem query_flips_mz_order :
    scanC10.sorted_by = some SortedBy.mzs ∧
    ((scanC10.mz_lookup 150).2).sorted_by ≠ scanC10.sorted_by := by decide

theorem has_fragment_eq_of_unknown_name {α : Type} [Inhabited α]
    (db : FragDB) (s : ScanState α) (name : String)
    (h : db.by_name name = none) :
    (ScanState.has_fragment db s name).1 = none := by
  unfold ScanState.has_fragment ScanState.fragment_by_name
  rw [h]

theorem has_fragment_eq_of_charged {α : Type} [Inhabited α]
    (db : FragDB) (s : ScanState α) (name : String) (frag : FragRecord)
    (h : db.by_name name = some frag) (hc : ¬frag.charge = 0) :
    (ScanState.has_fragment db s name).1
      = some ((s.mz_lookup frag.mass).1).isSome := by
  unfold ScanState.has_fragment ScanState.fragment_by_name
  rw [h]
  dsimp only
  rw [if_neg hc]

theorem has_fragment_eq_of_nl {α : Type} [Inhabited α]
    (db : FragDB) (s : ScanState α) (name : String) (frag : FragRecord)
    (p : ℚ) (h : db.by_name name = some frag) (hc : frag.charge = 0)
    (hp : s.precursor = some p) :
    (ScanState.has_fragment db s name).1
      = some ((s.mz_lookup (p - frag.mass)).1).isSome := by
  unfold ScanState.has_fragment ScanState.fragment_by_name
  rw [h]
  dsimp only
  rw [if_pos hc]
  unfold ScanState.nl_lookup
  rw [show s.nl frag.mass = some (p - frag.mass) from by
    unfold ScanState.nl
    rw [hp]
    rfl]
  rfl

theorem has_fragment_eq_of_nl_no_precursor {α : Type} [Inhabited α]
    (db : FragDB) (s : ScanState α) (name : String) (frag : FragRecord)
    (h : db.by_name name = some frag) (hc : frag.charge = 0)
    (hp : s.precursor = none) :
    (ScanState.has_fragment db s name).1 = some false := by
  unfold ScanState.has_fragment ScanState.fragment_by_name
  rw [h]
  dsimp only
  rw [if_pos hc]
  unfold ScanState.nl_lookup
  rw [show s.nl frag.mass = none from by
    unfold ScanState.nl
    rw [hp]
    rfl]
  rfl

/-- C8 (amended): `has_fragment` answers `none` exactly for names unknown
to the fragment database, never conflating that with known-but-absent;
for a known name it answers a boolean which is true iff the m/z lookup of
the record mass (direct ion for charged records, precursor minus mass for
charge-zero records with known precursor) finds its closest matching peak
at a nonzero index of the m/z-ascending order — a match at index 0 is
reported as absent by the falsy-index test, and a charge-zero record with
unknown precursor is always reported absent. -/
theorem has_fragment_tristate {α : Type} [Inhabited α] (db : FragDB)
    (s : ScanState α) (name : String) :
    ((ScanState.has_fragment db s name).1 = none ↔ db.by_name name = none) ∧
    (∀ frag, db.by_name name = some frag → ¬frag.charge = 0 →
      (ScanState.has_fragment db s name).1
        = some (foundNonzero (find s.sort_mz.mzs frag.mass s.tolerance))) ∧
    (∀ frag p, db.by_name name = some frag → frag.charge = 0 →
      s.precursor = some p →
      (ScanState.has_fragment db s name).1
        = some (foundNonzero
            (find s.sort_mz.mzs (p - frag.mass) s.tolerance))) ∧
    (∀ frag, db.by_name name = some frag → frag.charge = 0 →
      s.precursor = none →
      (ScanState.has_fragment db s name).1 = some false) := by
  refine ⟨?_, ?_, ?_, ?_⟩
  · constructor
    · intro h
      rcases hbn : db.by_name name with _ | frag
      · rfl
      · exfalso
        by_cases hc : frag.charge = 0
        · rcases hp : s.precursor with _ | p
          · rw [has_fragment_eq_of_nl_no_precursor db s name frag hbn hc hp]
              at h
            cases h
          · rw [has_fragment_eq_of_nl db s name frag p hbn hc hp] at h
            cases h
        · rw [has_fragment_eq_of_charged db s name frag hbn hc] at h
          cases h
    · intro h
      exact has_fragment_eq_of_unknown_name db s name h
  · intro frag hbn hc
    rw [has_fragment_eq_of_charged db s name frag hbn hc,
      mz_lookup_isSome]
  · intro frag p hbn hc hp
    rw [has_fragment_eq_of_nl db s name frag p hbn hc hp, mz_lookup_isSome]
  · intro frag hbn hc hp
    exact has_fragment_eq_of_nl_no_precursor db s name frag hbn hc hp

/-- Concrete fragment table for C8: one charged record named `X` whose
mass equals the lowest-m/z peak of the scan. -/
def dbC8 : FragDB := ⟨[⟨100, "X", "FX", "", none, none, 1⟩], 10⟩

/-- Concrete scan for C8. -/
def scanC8 : ScanState ℕ := scanInit [100, 200] [5, 3] [0, 0] none 10

/-- C8 (counterexample): the name `X` is in the database and a peak
matching its mass is present in the scan, yet `has_fragment` answers
`some false` — refuting the claim that a known name with a matching peak
yields `True`. -/
theorem has_fragment_known_present_reported_absent :
    (dbC8.by_name "X").isSome = true ∧
    matchTol (scanC8.mzs.getD 0 0) 100 scanC8.tolerance = true ∧
    (ScanState.has_fragment dbC8 scanC8 "X").1 = some false := by
  have hm0 : matchTol (100 : ℚ) 100 10 = true := by
    simp [matchTol]
    norm_num
  have hm1 : matchTol (200 : ℚ) 100 10 = false := by
    simp [matchTol]
    norm_num
  have hfind : find [100, 200] (100 : ℚ) 10 = some 0 := by
    unfold find findall
    simp [hm0, hm1, List.filter, show List.range 2 = [0, 1] from rfl]
  refine ⟨by decide, ?_, ?_⟩
  · rw [show scanC8.mzs.getD 0 0 = (100 : ℚ) from by decide,
      show scanC8.tolerance = 10 from by decide]
    exact hm0
  · rw [has_fragment_eq_of_charged dbC8 scanC8 "X" ⟨100, "X", "FX", "",
      none, none, 1⟩ (by decide) (by decide), mz_lookup_isSome,
      show scanC8.sort_mz.mzs = [100, 200] from by decide,
      show scanC8.tolerance = 10 from by decide]
    rw [show (⟨100, "X", "FX", "", none, none, 1⟩ : FragRecord).mass
      = (100 : ℚ) from rfl, hfind]
    rfl

/-- Witness for the amended C8 theorem: its charged-record clause applied
to the concrete database and scan. -/
theorem has_fragment_tristate_witness :
    (dbC8.by_name "X" = some ⟨100, "X", "FX", "", none, none, 1⟩ ∧
      ¬(⟨100, "X", "FX", "", none, none, 1⟩ : FragRecord).charge = 0) ∧
    (ScanState.has_fragment dbC8 scanC8 "X").1
      = some (foundNonzero (find scanC8.sort_mz.mzs
          (⟨100, "X", "FX", "", none, none, 1⟩ : FragRecord).mass
          scanC8.tolerance)) :=
  ⟨⟨by decide, by decide⟩,
    (has_fragment_tristate dbC8 scanC8 "X").2.1
      ⟨100, "X", "FX", "", none, none, 1⟩ (by decide) (by decide)⟩

/-- One entry of the scan chain list (`ms2.ChainFragment`): carbon count,
unsaturation, fragment type, chain type, peak index, raw intensity. -/
structure ChainFragment where
  c : ℤ
  u : ℤ
  fragtype : String
  chaintype : String
  i : ℕ
  intensity : ℚ
deriving DecidableEq

instance : Inhabited ChainFragment := ⟨⟨0, 0, "", "", 0, 0⟩⟩

/-- Modelled from the spec: `lipproc.ChainAttr` of the absent `lipproc`
module — per-chain attributes (sphingoid subtype, ether flag, hydroxyl
positions). -/
structure ChainAttr where
  sph : String
  ether : Bool
  oh : List String
deriving DecidableEq

instance : Inhabited ChainAttr := ⟨⟨"", false, []⟩⟩

/-- Modelled from the spec: `lipproc.ChainSummary` of the absent `lipproc`
module — total carbon count and unsaturation split across the named chain
positions, with per-position type tags and attributes; the number of
positions is the length of `typ`. -/
structure ChainSummary where
  c : ℤ
  u : ℤ
  typ : List String
  attr : List ChainAttr
deriving DecidableEq

/-- Modelled from the spec: `lipproc.Chain` of the absent `lipproc`
module — one resolved chain. -/
structure Chain where
  c : ℤ
  u : ℤ
  typ : String
  attr : ChainAttr
deriving DecidableEq

instance : Inhabited Chain := ⟨⟨0, 0, "", default⟩⟩

/-- Truncation of the chain list in `frags_for_positions`: the loop breaks
at the first fragment hitting the `head` limit (Python `head and
frag.i >= head`, where `head` of `None` or `0` disables the limit) or
falling below the intensity threshold. -/
def chainListTrunc (head : Option ℕ) (intensity_threshold : ℚ)
    (inorm : List ℚ) (chain_list : List ChainFragment) :
    List ChainFragment :=
  chain_list.takeWhile
    (fun frag =>
      !((match head with
          | none => false
          | some h => decide (h ≠ 0) && decide (h ≤ frag.i)) ||
        decide (inorm.getD frag.i 0 < intensity_threshold)))

/-- The `frag_types` filter of `frags_for_positions`: Python
`not frag_types or not frag_types[ci] or frag.fragtype in frag_types[ci]`
— no filter, an empty or `None` per-position entry, or membership. -/
def fragTypesOk (frag_types : Option (List (Option (List String))))
    (ci : ℕ) (ft : String) : Bool :=
  match frag_types with
  | none => true
  | some l =>
    match l.getD ci none with
    | none => true
    | some allowed => allowed.isEmpty || allowed.contains ft

/-- Per-position bucket of `frags_for_positions`: the `defaultdict` entry
at position `ci` collects, in iteration order, exactly the truncated
chain-list fragments whose type is allowed at `ci` (by the database
constraints `posFor` and the caller filter). -/
def fragsForPositionBucket (posFor : String → List ℕ)
    (frag_types : Option (List (Option (List String))))
    (head : Option ℕ) (intensity_threshold : ℚ) (inorm : List ℚ)
    (chain_list : List ChainFragment) (ci : ℕ) : List ChainFragment :=
  (chainListTrunc head intensity_threshold inorm chain_list).filter
    (fun frag => (posFor frag.fragtype).contains ci &&
      fragTypesOk frag_types ci frag.fragtype)

/-- Key set of the `frags_for_positions` dict: the positions that received
at least one fragment, in first-insertion order. -/
def fragsForPositionKeys (posFor : String → List ℕ)
    (frag_types : Option (List (Option (List String))))
    (head : Option ℕ) (intensity_threshold : ℚ) (inorm : List ℚ)
    (chain_list : List ChainFragment) : List ℕ :=
  ((chainListTrunc head intensity_threshold inorm chain_list).flatMap
    (fun frag => (posFor frag.fragtype).filter
      (fun ci => fragTypesOk frag_types ci frag.fragtype))).dedup

/-- Cartesian product of the per-position buckets, in the order of
`itertools.product`. -/
def cartProd {β : Type} : List (List β) → List (List β)
  | [] => [[]]
  | l :: ls => l.flatMap (fun x => (cartProd ls).map (fun tl => x :: tl))

/-- Modelled from the spec: the intensity-ratio log base read from
`settings` (`chain_fragment_instensity_ratios_logbase`, default about
1.5). -/
def settings_iratio_logbase : ℚ := 3 / 2

/-- Ordered pairs of `itertools.combinations(xs, 2)`. -/
def pairsOrdered {β : Type} : List β → List (β × β)
  | [] => []
  | x :: xs => xs.map (fun y => (x, y)) ++ pairsOrdered xs

/-- Embedding of `ScanBase.intensity_ratios`.  The `logbase` parameter of
the source is immediately overwritten from settings, so it is not a
parameter here.  A single intensity always passes; a non-positive
intensity raises `ValueError`.  The intensities are divided by the
expected ratio and by the multiplicity of their peak index, and each
ordered pair `(a, b)` of `itertools.combinations` must satisfy
`log(a, logbase) - log(b, logbase) <= 1`, which over positive values and
logbase 3/2 is exactly `a <= (3/2) * b` — note the source compares only
in this one direction, without absolute value.  An out-of-range expected
entry (IndexError in Python) is read as 1 here. -/
def intensity_ratios (intensities : List ℚ)
    (frag_indices : Option (List ℕ)) (expected : Option (List ℚ)) :
    Except String Bool :=
  let logbase := settings_iratio_logbase
  if intensities.length = 1 then Except.ok true
  else if intensities.any (fun x => decide (x ≤ 0)) then
    Except.error "Negative intensity value encountered"
  else
    let fi := match frag_indices with
      | none => List.range intensities.length
      | some l => if l.isEmpty then List.range intensities.length else l
    let expd := match expected with
      | none => List.replicate intensities.length (1 : ℚ)
      | some e => e
    let intcorr := (intensities.enum.zip fi).map
      (fun x => x.1.2 / expd.getD x.1.1 1 / (fi.count x.2 : ℚ))
    Except.ok (decide (∀ pr ∈ pairsOrdered intcorr,
      pr.1 ≤ logbase * pr.2))

/-- Embedding of `ScanBase._intensity_check`: the ratio check is needed
when the first position is a sphingoid base and the sphingolipid setting
is on, or it is not and the glycerolipid setting is on, or explicit
expected intensities were passed (Python truthiness: a `None` or empty
list does not trigger it). -/
def intensity_check (check_ratio_g check_ratio_s : Bool)
    (frag_comb : List ChainFragment) (chainsum : ChainSummary)
    (expected_intensities : Option (List ℚ)) : Except String Bool :=
  let isSph := chainsum.typ.headD "" == "Sph"
  let expTruthy := match expected_intensities with
    | none => false
    | some e => !e.isEmpty
  if !((isSph && check_ratio_s) || (!isSph && check_ratio_g) || expTruthy)
  then Except.ok true
  else intensity_ratios (frag_comb.map (fun f => f.intensity))
    (some (frag_comb.map (fun f => f.i))) expected_intensities

/-- Embedding of `ScanBase._chains_frag_comb` without a missing position:
one `Chain` per fragment, pairing each with the record attribute of its
position; the ether flag marks fatty alkyl chains. -/
def chainsOfComb (cs : ChainSummary) (frag_comb : List ChainFragment) :
    List Chain :=
  List.zipWith
    (fun frag at_ => Chain.mk frag.c frag.u frag.chaintype
      ⟨at_.sph, frag.chaintype == "FAL", at_.oh⟩)
    frag_comb cs.attr

/-- Generator runner: processes the candidate combinations in order,
yielding the produced values and stopping at the first raised exception,
exactly as a Python generator would. -/
def runCombs {β : Type}
    (step : List ChainFragment → Except String (Option β)) :
    List (List ChainFragment) → List β
  | [] => []
  | fc :: rest =>
    match step fc with
    | Except.error _ => []
    | Except.ok none => runCombs step rest
    | Except.ok (some y) => y :: runCombs step rest

/-- Acceptance of one combination in `chain_combinations`: the carbon and
unsaturation sums must equal the record totals exactly, then the
intensity check runs unless bypassed. -/
def chainCombStep (cs : ChainSummary)
    (no_intensity_check check_ratio_g check_ratio_s : Bool)
    (expected_intensities : Option (List ℚ))
    (fc : List ChainFragment) : Except String (Option (List Chain)) :=
  if (fc.map (fun f => f.c)).sum = cs.c ∧
      (fc.map (fun f => f.u)).sum = cs.u then
    match (if no_intensity_check then Except.ok true
      else intensity_check check_ratio_g check_ratio_s fc cs
        expected_intensities) with
    | Except.error e => Except.error e
    | Except.ok true => Except.ok (some (chainsOfComb cs fc))
    | Except.ok false => Except.ok none
  else Except.ok none

/-- Embedding of `ScanBase.chain_combinations` for a record carrying a
chain summary: if the number of positions that received candidate
fragments differs from the number of named positions of the record,
nothing is yielded; otherwise the Cartesian product of the buckets in
ascending position order is filtered by the exact sum condition and the
intensity check. -/
def chain_combinations (cs : ChainSummary)
    (chain_list : List ChainFragment) (posFor : String → List ℕ)
    (frag_types : Option (List (Option (List String))))
    (head : Option ℕ) (intensity_threshold : ℚ) (inorm : List ℚ)
    (expected_intensities : Option (List ℚ))
    (no_intensity_check check_ratio_g check_ratio_s : Bool) :
    List (List Chain) :=
  let keys := fragsForPositionKeys posFor frag_types head
    intensity_threshold inorm chain_list
  if keys.length = cs.typ.length then
    let buckets := (keys.insertionSort (fun a b => a ≤ b)).map
      (fragsForPositionBucket posFor frag_types head intensity_threshold
        inorm chain_list)
    runCombs
      (chainCombStep cs no_intensity_check check_ratio_g check_ratio_s
        expected_intensities)
      (cartProd buckets)
  else []

theorem runCombs_mem {β : Type}
    (step : List ChainFragment → Except String (Option β))
    (l : List (List ChainFragment)) (y : β) (hy : y ∈ runCombs step l) :
    ∃ fc ∈ l, step fc = Except.ok (some y) := by
  induction l with
  | nil => cases hy
  | cons fc rest ih =>
    unfold runCombs at hy
    rcases hstep : step fc with e | ob
    · rw [hstep] at hy
      cases hy
    · rw [hstep] at hy
      cases ob with
      | none =>
        obtain ⟨fc2, h1, h2⟩ := ih hy
        exact ⟨fc2, List.mem_cons_of_mem _ h1, h2⟩
      | some y2 =>
        rcases List.mem_cons.mp hy with h | h
        · exact ⟨fc, List.mem_cons_self _ _, by rw [hstep, h]⟩
        · obtain ⟨fc2, h1, h2⟩ := ih h
          exact ⟨fc2, List.mem_cons_of_mem _ h1, h2⟩

theorem cartProd_length {β : Type} (ls : List (List β)) (fc : List β)
    (h : fc ∈ cartProd ls) : fc.length = ls.length := by
  induction ls generalizing fc with
  | nil =>
    unfold cartProd at h
    rcases List.mem_singleton.mp h with rfl
    rfl
  | cons l rest ih =>
    unfold cartProd at h
    rcases List.mem_flatMap.mp h with ⟨x, hx, hmap⟩
    rcases List.mem_map.mp hmap with ⟨tl, htl, rfl⟩
    simp [ih tl htl]

theorem zipWith_chain_map_c :
    ∀ (fc : List ChainFragment) (ats : List ChainAttr),
      fc.length ≤ ats.length →
      ((List.zipWith
        (fun frag at_ => Chain.mk frag.c frag.u frag.chaintype
          ⟨at_.sph, frag.chaintype == "FAL", at_.oh⟩) fc ats).map
          (fun ch => ch.c)) = fc.map (fun f => f.c)
  | [], _, _ => rfl
  | f :: rest, [], h => absurd h (by simp)
  | f :: rest, a :: ats, h => by
      simp only [List.zipWith_cons_cons, List.map_cons]
      rw [zipWith_chain_map_c rest ats (by simpa using h)]

theorem zipWith_chain_map_u :
    ∀ (fc : List ChainFragment) (ats : List ChainAttr),
      fc.length ≤ ats.length →
      ((List.zipWith
        (fun frag at_ => Chain.mk frag.c frag.u frag.chaintype
          ⟨at_.sph, frag.chaintype == "FAL", at_.oh⟩) fc ats).map
          (fun ch => ch.u)) = fc.map (fun f => f.u)
  | [], _, _ => rfl
  | f :: rest, [], h => absurd h (by simp)
  | f :: rest, a :: ats, h => by
      simp only [List.zipWith_cons_cons, List.map_cons]
      rw [zipWith_chain_map_u rest ats (by simpa using h)]

theorem chainsOfComb_map_c (cs : ChainSummary) (fc : List ChainFragment)
    (h : fc.length ≤ cs.attr.length) :
    ((chainsOfComb cs fc).map (fun ch => ch.c)) = fc.map (fun f => f.c) :=
  zipWith_chain_map_c fc cs.attr h

theorem chainsOfComb_map_u (cs : ChainSummary) (fc : List ChainFragment)
    (h : fc.length ≤ cs.attr.length) :
    ((chainsOfComb cs fc).map (fun ch => ch.u)) = fc.map (fun f => f.u) :=
  zipWith_chain_map_u fc cs.attr h

theorem mem_fragsForPositionKeys (posFor : String → List ℕ)
    (frag_types : Option (List (Option (List String))))
    (head : Option ℕ) (intensity_threshold : ℚ) (inorm : List ℚ)
    (chain_list : List ChainFragment) (ci : ℕ) :
    ci ∈ fragsForPositionKeys posFor frag_types head intensity_threshold
        inorm chain_list ↔
    fragsForPositionBucket posFor frag_types head intensity_threshold
        inorm chain_list ci ≠ [] := by
  unfold fragsForPositionKeys fragsForPositionBucket
  rw [List.mem_dedup, List.mem_flatMap]
  constructor
  · rintro ⟨frag, hfrag, hmem⟩
    rw [List.mem_filter] at hmem
    intro hnil
    rw [List.filter_eq_nil_iff] at hnil
    refine hnil frag hfrag ?_
    simp only [Bool.and_eq_true]
    exact ⟨List.elem_iff.mpr hmem.1, hmem.2⟩
  · intro hnil
    rcases hne : (chainListTrunc head intensity_threshold inorm
        chain_list).filter
        (fun frag => (posFor frag.fragtype).contains ci &&
          fragTypesOk frag_types ci frag.fragtype) with _ | ⟨frag, rest⟩
    · exact absurd hne hnil
    · have hfrag : frag ∈ (chainListTrunc head intensity_threshold inorm
          chain_list).filter
          (fun frag => (posFor frag.fragtype).contains ci &&
            fragTypesOk frag_types ci frag.fragtype) := by
        rw [hne]
        exact List.mem_cons_self _ _
      rw [List.mem_filter] at hfrag
      refine ⟨frag, hfrag.1, ?_⟩
      rw [List.mem_filter]
      have h2 := hfrag.2
      simp only [Bool.and_eq_true] at h2
      exact ⟨by simpa using h2.1, h2.2⟩

/-- C1: every combination yielded by `chain_combinations` has per-position
carbon counts and unsaturations summing exactly to the record totals, and
a record with any empty candidate bucket among its named positions yields
no combination at all. -/
theorem chain_combinations_correct (cs : ChainSummary)
    (chain_list : List ChainFragment) (posFor : String → List ℕ)
    (frag_types : Option (List (Option (List String))))
    (head : Option ℕ) (intensity_threshold : ℚ) (inorm : List ℚ)
    (expected_intensities : Option (List ℚ))
    (no_intensity_check check_ratio_g check_ratio_s : Bool)
    (hattr : cs.typ.length ≤ cs.attr.length)
    (hpos : ∀ t ci, ci ∈ posFor t → ci < cs.typ.length) :
    (∀ chains ∈ chain_combinations cs chain_list posFor frag_types head
        intensity_threshold inorm expected_intensities no_intensity_check
        check_ratio_g check_ratio_s,
      (chains.map (fun ch => ch.c)).sum = cs.c ∧
      (chains.map (fun ch => ch.u)).sum = cs.u) ∧
    (∀ ci, ci < cs.typ.length →
      fragsForPositionBucket posFor frag_types head intensity_threshold
        inorm chain_list ci = [] →
      chain_combinations cs chain_list posFor frag_types head
        intensity_threshold inorm expected_intensities no_intensity_check
        check_ratio_g check_ratio_s = []) := by
  constructor
  · intro chains hmem
    unfold chain_combinations at hmem
    by_cases hk : (fragsForPositionKeys posFor frag_types head
        intensity_threshold inorm chain_list).length = cs.typ.length
    · rw [if_pos hk] at hmem
      obtain ⟨fc, hfc, hstep⟩ := runCombs_mem _ _ _ hmem
      have hfclen : fc.length = cs.typ.length := by
        have h1 := cartProd_length _ _ hfc
        rw [h1, List.length_map, List.length_insertionSort, hk]
      unfold chainCombStep at hstep
      by_cases hsum : (fc.map (fun f => f.c)).sum = cs.c ∧
          (fc.map (fun f => f.u)).sum = cs.u
      · have hch : chains = chainsOfComb cs fc := by
          rw [if_pos hsum] at hstep
          rcases hchk : (if no_intensity_check then Except.ok true
            else intensity_check check_ratio_g check_ratio_s fc cs
              expected_intensities) with e | b
          · rw [hchk] at hstep
            cases hstep
          · rw [hchk] at hstep
            cases b with
            | false => cases hstep
            | true =>
              injection hstep with h
              injection h with h2
              exact h2.symm
        rw [hch, chainsOfComb_map_c cs fc (by omega),
          chainsOfComb_map_u cs fc (by omega)]
        exact hsum
      · rw [if_neg hsum] at hstep
        cases hstep
    · rw [if_neg hk] at hmem
      cases hmem
  · intro ci hciK hciEmpty
    unfold chain_combinations
    rw [if_neg ?_]
    intro hk
    set keys := fragsForPositionKeys posFor frag_types head
      intensity_threshold inorm chain_list with hkeys
    have hnodup : keys.Nodup := List.nodup_dedup _
    have hsub : keys.toFinset ⊆
        (Finset.range cs.typ.length).erase ci := by
      intro x hx
      rw [List.mem_toFinset] at hx
      have hxlt : x < cs.typ.length := by
        have := (mem_fragsForPositionKeys posFor frag_types head
          intensity_threshold inorm chain_list x).mp hx
        unfold fragsForPositionBucket at this
        rcases hne : (chainListTrunc head intensity_threshold inorm
            chain_list).filter
            (fun frag => (posFor frag.fragtype).contains x &&
              fragTypesOk frag_types x frag.fragtype) with _ | ⟨frag, rest⟩
        · exact absurd hne this
        · have hfrag : frag ∈ (chainListTrunc head intensity_threshold
              inorm chain_list).filter
              (fun frag => (posFor frag.fragtype).contains x &&
                fragTypesOk frag_types x frag.fragtype) := by
            rw [hne]
            exact List.mem_cons_self _ _
          rw [List.mem_filter] at hfrag
          have h2 := hfrag.2
          simp only [Bool.and_eq_true] at h2
          exact hpos frag.fragtype x (by simpa using h2.1)
      have hxne : x ≠ ci := by
        intro hxeq
        subst hxeq
        exact (mem_fragsForPositionKeys posFor frag_types head
          intensity_threshold inorm chain_list x).mp hx hciEmpty
      rw [Finset.mem_erase, Finset.mem_range]
      exact ⟨hxne, hxlt⟩
    have hcard : keys.length ≤ cs.typ.length - 1 := by
      rw [← List.toFinset_card_of_nodup hnodup]
      calc keys.toFinset.card
          ≤ ((Finset.range cs.typ.length).erase ci).card :=
            Finset.card_le_card hsub
        _ = cs.typ.length - 1 := by
            rw [Finset.card_erase_of_mem (Finset.mem_range.mpr hciK)]
            rw [Finset.card_range]
    omega

/-- Record of Scenario C: total C=36, U=1 over two acyl positions. -/
def csC1 : ChainSummary :=
  ⟨36, 1, ["FA", "FA"], [⟨"", false, []⟩, ⟨"", false, []⟩]⟩

/-- Chain fragments of Scenario C: (18,0), (18,1), (16,0). -/
def clC1 : List ChainFragment :=
  [⟨18, 0, "FA_mH", "FA", 0, 5⟩, ⟨18, 1, "FA_mH", "FA", 1, 4⟩,
    ⟨16, 0, "FA_mH", "FA", 2, 3⟩]

/-- Positional constraints of Scenario C: the fatty-acid fragment type may
originate from either position. -/
def posForC1 : String → List ℕ := fun _ => [0, 1]

/-- Witness for C1: the theorem applied to the Scenario C record. -/
theorem chain_combinations_correct_witness :
    (csC1.typ.length ≤ csC1.attr.length ∧
      (∀ t ci, ci ∈ posForC1 t → ci < csC1.typ.length)) ∧
    ((∀ chains ∈ chain_combinations csC1 clC1 posForC1 none none 0
        [1, 1, 1] none true false false,
      (chains.map (fun ch => ch.c)).sum = csC1.c ∧
      (chains.map (fun ch => ch.u)).sum = csC1.u) ∧
    (∀ ci, ci < csC1.typ.length →
      fragsForPositionBucket posForC1 none none 0 [1, 1, 1] clC1 ci = [] →
      chain_combinations csC1 clC1 posForC1 none none 0 [1, 1, 1] none
        true false false = [])) :=
  ⟨⟨by decide, by
      intro t ci h
      simp only [posForC1, List.mem_cons, List.not_mem_nil, or_false,
        List.mem_singleton] at h
      rcases h with rfl | rfl <;> decide⟩,
    chain_combinations_correct csC1 clC1 posForC1 none none 0 [1, 1, 1]
      none true false false (by decide)
      (by
        intro t ci h
        simp only [posForC1, List.mem_cons, List.not_mem_nil, or_false,
          List.mem_singleton] at h
        rcases h with rfl | rfl <;> decide)⟩

/-- Modelled from the spec: `iterator_insert` of the absent
`lipyd.common` module, as used by `_chains_frag_comb` — the chain
positions are iterated in order, the missing position takes the inferred
chain, and the other positions consume the fragment combination in
order. -/
def chainsOfCombMissing (cs : ChainSummary) (mp : ℕ) (mchain : Chain)
    (fc : List ChainFragment) : List Chain :=
  (List.range cs.typ.length).map
    (fun ichain =>
      if ichain = mp then mchain
      else
        let frag := fc.getD (if ichain < mp then ichain else ichain - 1)
          default
        Chain.mk frag.c frag.u frag.chaintype
          ⟨(cs.attr.getD ichain default).sph, frag.chaintype == "FAL",
            (cs.attr.getD ichain default).oh⟩)

/-- Acceptance of one combination in `missing_chain`: skip when more than
one chain is missing, infer the missing carbon count and unsaturation by
subtraction, reject chemically impossible values
(`c < 1`, `u < 0`, `u > c - 1`), then run the intensity check unless
bypassed. -/
def missingChainStep (cs : ChainSummary) (mp : ℕ)
    (no_intensity_check check_ratio_g check_ratio_s : Bool)
    (expected_intensities : Option (List ℚ))
    (fc : List ChainFragment) : Except String (Option (List Chain)) :=
  if cs.typ.length - fc.length > 1 then Except.ok none
  else
    let missing_c := cs.c - (fc.map (fun f => f.c)).sum
    let missing_u := cs.u - (fc.map (fun f => f.u)).sum
    if missing_c < 1 ∨ missing_u < 0 ∨ missing_u > missing_c - 1 then
      Except.ok none
    else
      match (if no_intensity_check then Except.ok true
        else intensity_check check_ratio_g check_ratio_s fc cs
          expected_intensities) with
      | Except.error e => Except.error e
      | Except.ok true =>
          Except.ok (some (chainsOfCombMissing cs mp
            ⟨missing_c, missing_u, cs.typ.getD mp "",
              cs.attr.getD mp default⟩ fc))
      | Except.ok false => Except.ok none

/-- Embedding of `ScanBase.missing_chain`: raises `ValueError` when the
missing position is beyond the record positions; otherwise removes the
missing position bucket and iterates the Cartesian product of the
remaining buckets in ascending position order. -/
def missing_chain (cs : ChainSummary) (mp : ℕ)
    (chain_list : List ChainFragment) (posFor : String → List ℕ)
    (frag_types : Option (List (Option (List String))))
    (head : Option ℕ) (intensity_threshold : ℚ) (inorm : List ℚ)
    (expected_intensities : Option (List ℚ))
    (no_intensity_check check_ratio_g check_ratio_s : Bool) :
    Except String (List (List Chain)) :=
  if cs.typ.length ≤ mp then
    Except.error "No chain known at position"
  else
    let keys := fragsForPositionKeys posFor frag_types head
      intensity_threshold inorm chain_list
    let keys2 := (keys.insertionSort (fun a b => a ≤ b)).erase mp
    let buckets := keys2.map (fragsForPositionBucket posFor frag_types
      head intensity_threshold inorm chain_list)
    Except.ok (runCombs
      (missingChainStep cs mp no_intensity_check check_ratio_g
        check_ratio_s expected_intensities)
      (cartProd buckets))

instance {ε β : Type} [DecidableEq ε] [DecidableEq β] :
    DecidableEq (Except ε β) := fun a b =>
  match a, b with
  | Except.error e1, Except.error e2 =>
    if h : e1 = e2 then isTrue (by rw [h])
    else isFalse (fun hc => h (by injection hc))
  | Except.ok b1, Except.ok b2 =>
    if h : b1 = b2 then isTrue (by rw [h])
    else isFalse (fun hc => h (by injection hc))
  | Except.error e1, Except.ok b2 => isFalse (fun hc => by injection hc)
  | Except.ok b1, Except.error e2 => isFalse (fun hc => by injection hc)

/-- C7: every combination yielded by `missing_chain` carries at the
missing position a chain whose carbon count and unsaturation are the
record totals minus the assigned fragment totals, and it is yielded only
when these inferred values satisfy `c >= 1` and `0 <= u <= c - 1`. -/
theorem missing_chain_validity (cs : ChainSummary) (mp : ℕ)
    (chain_list : List ChainFragment) (posFor : String → List ℕ)
    (frag_types : Option (List (Option (List String))))
    (head : Option ℕ) (intensity_threshold : ℚ) (inorm : List ℚ)
    (expected_intensities : Option (List ℚ))
    (no_intensity_check check_ratio_g check_ratio_s : Bool)
    (ys : List (List Chain))
    (hok : missing_chain cs mp chain_list posFor frag_types head
      intensity_threshold inorm expected_intensities no_intensity_check
      check_ratio_g check_ratio_s = Except.ok ys) :
    ∀ chains ∈ ys, ∃ fc : List ChainFragment,
      chains = chainsOfCombMissing cs mp
        ⟨cs.c - (fc.map (fun f => f.c)).sum,
          cs.u - (fc.map (fun f => f.u)).sum,
          cs.typ.getD mp "", cs.attr.getD mp default⟩ fc ∧
      (chains.getD mp default).c
        = cs.c - (fc.map (fun f => f.c)).sum ∧
      (chains.getD mp default).u
        = cs.u - (fc.map (fun f => f.u)).sum ∧
      1 ≤ (chains.getD mp default).c ∧
      0 ≤ (chains.getD mp default).u ∧
      (chains.getD mp default).u ≤ (chains.getD mp default).c - 1 := by
  intro chains hmem
  unfold missing_chain at hok
  by_cases hmp : cs.typ.length ≤ mp
  · rw [if_pos hmp] at hok
    cases hok
  · rw [if_neg hmp] at hok
    injection hok with hok
    rw [← hok] at hmem
    obtain ⟨fc, _, hstep⟩ := runCombs_mem _ _ _ hmem
    unfold missingChainStep at hstep
    by_cases hg1 : cs.typ.length - fc.length > 1
    · rw [if_pos hg1] at hstep
      cases hstep
    · rw [if_neg hg1] at hstep
      by_cases hg2 : cs.c - (fc.map (fun f => f.c)).sum < 1 ∨
          cs.u - (fc.map (fun f => f.u)).sum < 0 ∨
          cs.u - (fc.map (fun f => f.u)).sum >
            cs.c - (fc.map (fun f => f.c)).sum - 1
      · rw [if_pos hg2] at hstep
        cases hstep
      · rw [if_neg hg2] at hstep
        rcases hchk : (if no_intensity_check then Except.ok true
          else intensity_check check_ratio_g check_ratio_s fc cs
            expected_intensities) with e | b
        · rw [hchk] at hstep
          cases hstep
        · rw [hchk] at hstep
          cases b with
          | false => cases hstep
          | true =>
            injection hstep with h
            injection h with h2
            refine ⟨fc, h2.symm, ?_⟩
            have hmpK : mp < cs.typ.length := by omega
            have hgd : chains.getD mp default
                = (⟨cs.c - (fc.map (fun f => f.c)).sum,
                    cs.u - (fc.map (fun f => f.u)).sum,
                    cs.typ.getD mp "", cs.attr.getD mp default⟩ : Chain)
                := by
              rw [← h2]
              unfold chainsOfCombMissing
              rw [List.getD_eq_getElem _ _ (by simpa using hmpK)]
              simp
            rw [hgd]
            push_neg at hg2
            refine ⟨rfl, rfl, ?_, ?_, ?_⟩
            · show 1 ≤ cs.c - (fc.map (fun f => f.c)).sum
              omega
            · show 0 ≤ cs.u - (fc.map (fun f => f.u)).sum
              omega
            · show cs.u - (fc.map (fun f => f.u)).sum
                ≤ cs.c - (fc.map (fun f => f.c)).sum - 1
              omega

/-- Record for the C7 witness: a sphingolipid with total C=36, U=1, the
sphingoid base evidenced by a fragment and the N-acyl chain missing. -/
def csC7 : ChainSummary :=
  ⟨36, 1, ["Sph", "FA"], [⟨"d", false, []⟩, ⟨"", false, []⟩]⟩

/-- Chain fragment list for the C7 witness: one sphingoid fragment. -/
def clC7 : List ChainFragment := [⟨18, 1, "Sph1", "Sph", 0, 5⟩]

/-- Positional constraints for the C7 witness. -/
def posForC7 : String → List ℕ :=
  fun t => if t = "Sph1" then [0] else []

/-- Result list of the C7 witness run. -/
def ysC7 : List (List Chain) :=
  [[⟨18, 1, "Sph", ⟨"d", false, []⟩⟩, ⟨18, 0, "FA", ⟨"", false, []⟩⟩]]

/-- Witness for C7: the theorem applied to a concrete sphingolipid record
with the N-acyl chain missing. -/
theorem missing_chain_validity_witness :
    (missing_chain csC7 1 clC7 posForC7 none none 0 [1] none true false
        false = Except.ok ysC7) ∧
    (∀ chains ∈ ysC7, ∃ fc : List ChainFragment,
      chains = chainsOfCombMissing csC7 1
        ⟨csC7.c - (fc.map (fun f => f.c)).sum,
          csC7.u - (fc.map (fun f => f.u)).sum,
          csC7.typ.getD 1 "", csC7.attr.getD 1 default⟩ fc ∧
      (chains.getD 1 default).c
        = csC7.c - (fc.map (fun f => f.c)).sum ∧
      (chains.getD 1 default).u
        = csC7.u - (fc.map (fun f => f.u)).sum ∧
      1 ≤ (chains.getD 1 default).c ∧
      0 ≤ (chains.getD 1 default).u ∧
      (chains.getD 1 default).u ≤ (chains.getD 1 default).c - 1) :=
  ⟨by decide,
    missing_chain_validity csC7 1 clC7 posForC7 none none 0 [1] none true
      false false ysC7 (by decide)⟩

/-- C9: evaluation of `intensity_ratios` at the scenario inputs.  With
expected ratios `[1, 1]` the intensities `[100, 105]` pass; but
`[100, 1000]` also passes — although the claim requires it to fail —
because the source compares only `log(first) - log(second) <= 1` for
pairs in list order, without absolute value (over positives and logbase
3/2 this is `first <= (3/2) * second`); the reversed list `[1000, 100]`
fails, exhibiting the asymmetry. -/
theorem intensity_ratios_scenario :
    intensity_ratios [100, 105] none (some [1, 1]) = Except.ok true ∧
    intensity_ratios [100, 1000] none (some [1, 1]) = Except.ok true ∧
    intensity_ratios [1000, 100] none (some [1, 1]) = Except.ok false := by
  refine ⟨?_, ?_, ?_⟩ <;>
    · unfold intensity_ratios settings_iratio_logbase
      norm_num [List.enum, List.enumFrom, pairsOrdered, List.count_cons,
        show List.range 2 = [0, 1] from rfl, List.count_nil]

/-- Embedding of numpy `round` (half to even) on a rational. -/
def npRound (q : ℚ) : ℤ :=
  if q - ⌊q⌋ < 1/2 then ⌊q⌋
  else if 1/2 < q - ⌊q⌋ then ⌊q⌋ + 1
  else if Even ⌊q⌋ then ⌊q⌋ else ⌊q⌋ + 1

/-- Embedding of `AbstractMS2Identifier.percent_score`:
`max(int(np.round(score / max_score * 100.)), 0)` for a truthy
(nonzero) maximum score, the sentinel 200 otherwise. -/
def percent_score (score max_score : ℚ) : ℤ :=
  if max_score ≠ 0 then max (npRound (score / max_score * 100)) 0 else 200

/-- Output unit of `identify` (`ms2.MS2Identity`), restricted to the
fields the scoring contract concerns. -/
structure MS2Identity where
  score : ℚ
  max_score : ℚ
  score_pct : ℤ
  chains : Option (List Chain)
deriving DecidableEq

/-- Embedding of `AbstractMS2Identifier.identify`: nothing without a
headgroup; one identity per explicit chain combination; implicit
(missing-chain) combinations are tried when no explicit one confirmed or
when both are requested; a chainless identity is emitted when no chains
confirmed, chains are not mandatory, and the score is truthy.  Every
emitted identity carries `max(score, 0)` and `percent_score`. -/
def identify (hg : Option String) (score max_score : ℚ)
    (explicit_chains implicit_chains : List (List Chain))
    (explicit_and_implicit must_have_chains : Bool) : List MS2Identity :=
  match hg with
  | none => []
  | some _ =>
    let mk : Option (List Chain) → MS2Identity := fun ch =>
      ⟨max score 0, max_score, percent_score score max_score, ch⟩
    let fromExplicit := explicit_chains.map (fun ch => mk (some ch))
    let tryImplicit := explicit_chains.isEmpty || explicit_and_implicit
    let fromImplicit :=
      if tryImplicit then implicit_chains.map (fun ch => mk (some ch))
      else []
    let chains_confirmed :=
      !explicit_chains.isEmpty ||
        (tryImplicit && !implicit_chains.isEmpty)
    let chainless :=
      if !chains_confirmed && !must_have_chains && decide (score ≠ 0)
      then [mk none]
      else []
    fromExplicit ++ fromImplicit ++ chainless

theorem npRound_le (q : ℚ) (n : ℤ) (h : q ≤ (n : ℚ)) : npRound q ≤ n := by
  have hf : ⌊q⌋ ≤ n := by
    have := Int.floor_le_floor h
    rwa [Int.floor_intCast] at this
  have hf1 : ¬(q - ⌊q⌋ < 1/2) → ⌊q⌋ + 1 ≤ n := by
    intro hr
    push_neg at hr
    have hlt : (⌊q⌋ : ℚ) < (n : ℚ) := by
      have h2 : (⌊q⌋ : ℚ) + 1/2 ≤ q := by linarith
      have h3 : (⌊q⌋ : ℚ) + 1/2 ≤ (n : ℚ) := le_trans h2 h
      linarith
    have : ⌊q⌋ < n := by exact_mod_cast hlt
    omega
  unfold npRound
  split_ifs with h1 h2 h3
  · exact hf
  · exact hf1 h1
  · exact hf
  · exact hf1 h1

/-- C5 (amended): every identity emitted by `identify` carries the score
percentage `round(score / max_score * 100)` clamped below at 0 when the
maximum score is nonzero and the sentinel 200 when it is zero, so the
percentage is never negative; the bounds `0 <= score_pct <= 100` for
`max_score > 0` and the equivalence `score_pct = 200` iff
`max_score = 0` hold whenever the accumulated score does not exceed the
accumulated maximum — a discipline some identifier scoring rules break,
see the counterexample. -/
theorem identify_score_pct_bounds (hg : Option String)
    (score max_score : ℚ)
    (explicit_chains implicit_chains : List (List Chain))
    (explicit_and_implicit must_have_chains : Bool) :
    (∀ ident ∈ identify hg score max_score explicit_chains
        implicit_chains explicit_and_implicit must_have_chains,
      ident.score_pct = percent_score score max_score) ∧
    0 ≤ percent_score score max_score ∧
    (0 ≤ max_score → score ≤ max_score →
      (0 < max_score → percent_score score max_score ≤ 100) ∧
      (percent_score score max_score = 200 ↔ max_score = 0)) := by
  have hupper : 0 < max_score → score ≤ max_score →
      percent_score score max_score ≤ 100 := by
    intro hpos h1
    have hne : max_score ≠ 0 := ne_of_gt hpos
    unfold percent_score
    rw [if_pos hne]
    have hq : score / max_score * 100 ≤ ((100 : ℤ) : ℚ) := by
      have hd : score / max_score ≤ 1 := (div_le_one hpos).mpr h1
      have := mul_le_mul_of_nonneg_right hd
        (by norm_num : (0 : ℚ) ≤ 100)
      push_cast
      linarith
    have := npRound_le (score / max_score * 100) 100 hq
    exact max_le this (by norm_num)
  refine ⟨?_, ?_, ?_⟩
  · intro ident hmem
    cases hg with
    | none => cases hmem
    | some hgv =>
      unfold identify at hmem
      dsimp only at hmem
      rw [List.mem_append, List.mem_append] at hmem
      rcases hmem with (hmem | hmem) | hmem
      · rcases List.mem_map.mp hmem with ⟨ch, _, rfl⟩
        rfl
      · by_cases htry : (explicit_chains.isEmpty || explicit_and_implicit)
            = true
        · rw [if_pos htry] at hmem
          rcases List.mem_map.mp hmem with ⟨ch, _, rfl⟩
          rfl
        · rw [if_neg htry] at hmem
          cases hmem
      · by_cases hcl : (!(!explicit_chains.isEmpty ||
            ((explicit_chains.isEmpty || explicit_and_implicit) &&
              !implicit_chains.isEmpty)) && !must_have_chains &&
            decide (score ≠ 0)) = true
        · rw [if_pos hcl] at hmem
          rcases List.mem_singleton.mp hmem with rfl
          rfl
        · rw [if_neg hcl] at hmem
          cases hmem
  · unfold percent_score
    by_cases hne : max_score ≠ 0
    · rw [if_pos hne]
      exact le_max_right _ 0
    · rw [if_neg hne]
      norm_num
  · intro h0 h1
    refine ⟨fun hpos => hupper hpos h1, ?_, ?_⟩
    · intro h200
      by_contra hne
      have hpos : 0 < max_score := lt_of_le_of_ne h0 (Ne.symm hne)
      have := hupper hpos h1
      omega
    · intro hz
      unfold percent_score
      rw [if_neg (by simpa using hz)]

/-- Witness for C5: the amended theorem applied to a concrete identifier
outcome (score 5 of maximum 10, one explicit chain combination), with
every hypothesis discharged. -/
theorem identify_score_pct_bounds_witness :
    (∀ ident ∈ identify (some "PC") 5 10
        [[⟨16, 0, "FA", ⟨"", false, []⟩⟩]] [] false true,
      ident.score_pct = percent_score 5 10) ∧
    0 ≤ percent_score 5 10 ∧
    percent_score 5 10 ≤ 100 ∧
    (percent_score 5 10 = 200 ↔ (10 : ℚ) = 0) :=
  have h := identify_score_pct_bounds (some "PC") 5 10
    [[⟨16, 0, "FA", ⟨"", false, []⟩⟩]] [] false true
  ⟨h.1, h.2.1,
    (h.2.2 (by norm_num) (by norm_num)).1 (by norm_num),
    (h.2.2 (by norm_num) (by norm_num)).2⟩

/-- Chain combination carried by the C5 counterexample identity. -/
def chainsC5 : List (List Chain) :=
  [[⟨18, 1, "Sph", ⟨"dh", false, []⟩⟩, ⟨24, 0, "FA", ⟨"", false, []⟩⟩]]

/-- C5 (counterexample): `Cer_Negative.sphingosine_dh` starts from a
maximum score of -20 and adds the `sphingosine_d_dh` pair, so it returns
score 20 against maximum 0 when the d/dh chain combination is confirmed
and the `NL C+H2O` fragment is absent, and `confirm_chains_explicit`
adds that pair to the accumulated score before yielding.  With a base
score 5 of maximum 23 this reaches the accumulated pair (25, 23), and
the emitted identity then carries `score_pct = round(2500/23) = 109`
with a positive maximum score — refuting the claim that
`0 <= score_pct <= 100` whenever `max_score > 0`. -/
theorem identify_emits_score_pct_above_100 :
    (identify (some "Cer") 25 23 chainsC5 [] false true).map
        (fun ident => ident.score_pct) = [109] ∧
    (identify (some "Cer") 25 23 chainsC5 [] false true).map
        (fun ident => ident.max_score) = [23] ∧
    (0 : ℚ) < 23 ∧ ¬((109 : ℤ) ≤ 100) := by
  have hps : percent_score 25 23 = 109 := by
    unfold percent_score npRound
    norm_num
  refine ⟨?_, ?_, by norm_num, by norm_num⟩
  · show [percent_score 25 23] = [109]
    rw [hps]
  · rfl

end Lipyd
